import Mathlib

/-!
# ASR windowing-and-merge orchestration engine: a shallow embedding

This file embeds the core of a browser-based speech-to-text tool: the worker
that slices a waveform into overlapping 30-second windows, drives the
inference backend window by window, repairs repeated phrases produced by
greedy decoding, merges per-window segments, and the main-thread message
handler that discards stale worker events.

JS strings are modelled as `List Char`, JS numbers (timestamps in seconds,
progress percentages) as exact rationals `ℚ`, and typed worker messages as
inductive types.  Loops are modelled by structural recursion; the two loops
whose indices do not decrease structurally (`collapsePassGo`,
`buildWindowsGo`) take an explicit fuel argument that provably dominates
their iteration count, so every definition evaluates by kernel reduction.
-/

attribute [local semireducible] Rat.add Rat.sub Rat.mul Rat.inv Rat.ofScientific

namespace SonicScript

/-- JS strings modelled as lists of characters. -/
abbrev Str := List Char

/-- Convert a Lean string literal to our character-list representation. -/
def str (s : String) : Str := s.toList

/-- Models the JS regex character class `\s` (whitespace). -/
def isWs (c : Char) : Bool := c.isWhitespace

/-- `text.replace(/\s+/g, " ")`: every maximal whitespace run becomes a single
space.  Implemented as a right fold: a whitespace character contributes
nothing when the rest of its run has already produced the replacement
space. -/
def squeezeWs : Str → Str
  | [] => []
  | c :: rest =>
    let r := squeezeWs rest
    if isWs c then (if r.head? = some ' ' then r else ' ' :: r) else c :: r

/-- Drop trailing whitespace (the right half of `String.prototype.trim`). -/
def trimRight : Str → Str
  | [] => []
  | c :: rest =>
    match trimRight rest with
    | [] => if isWs c then [] else [c]
    | r => c :: r

/-- JS `text.trim()`: remove leading and trailing whitespace. -/
def trimWs (s : Str) : Str := trimRight (s.dropWhile isWs)

/-- `normalizeWhitespace` from the worker:
`text.replace(/\s+/g, " ").trim()`. -/
def normalizeWhitespace (s : Str) : Str := trimWs (squeezeWs s)

/-- JS `s.split(" ")` (single-character separator).  As in JS, the result is
never empty: splitting the empty string gives `[""]`. -/
def splitOnSpace : Str → List Str
  | [] => [[]]
  | c :: rest =>
    match splitOnSpace rest with
    | [] => [[c]]
    | w :: ws => if c = ' ' then [] :: w :: ws else (c :: w) :: ws

/-- JS `words.join(" ")`. -/
def joinSpace (words : List Str) : Str := List.intercalate [' '] words

/-- One inner `while (index <= words.length)` pass of
`collapseConsecutiveRepeatedNgrams` at a fixed `gramSize = g`.  The source
compares `words[index - 2g + o]` with `words[index - g + o]` for
`o = 0 .. g-1`, which (for the reachable indices `2g ≤ index`) is exactly
equality of the two adjacent `g`-word windows ending at `index`; on a match it
splices out the second copy (`words.splice(index - g, g)`) and retries the
same `index`, otherwise it advances `index`.

The `fuel` argument makes the recursion structural.  Every iteration either
advances `index` or removes `g ≥ 3` words, so the measure
`2·words.length + 1 - index` strictly decreases; `collapsePass` supplies
`2·words.length + 1` fuel, which therefore dominates the iteration count for
every call the collapse driver makes (`g ≥ 3`, `index = 2g`). -/
def collapsePassGo (g : Nat) : Nat → Nat → List Str → List Str
  | 0, _, words => words
  | fuel + 1, index, words =>
    if index ≤ words.length then
      if (words.drop (index - g * 2)).take g = (words.drop (index - g)).take g then
        collapsePassGo g fuel index (words.take (index - g) ++ words.drop index)
      else
        collapsePassGo g fuel (index + 1) words
    else words

/-- The inner while-loop of `collapseConsecutiveRepeatedNgrams`, started the
way the source starts it. -/
def collapsePass (g index : Nat) (words : List Str) : List Str :=
  collapsePassGo g (2 * words.length + 1) index words

/-- The outer `for (gramSize = min(20, ⌊n/2⌋); gramSize >= 3; gramSize--)`
loop of `collapseConsecutiveRepeatedNgrams`: `collapseFrom k` runs the passes
for `gramSize = k + 2` down to `3`, so the driver calls it with
`k = min(20, ⌊n/2⌋) - 2`. -/
def collapseFrom : Nat → List Str → List Str
  | 0, words => words
  | k + 1, words => collapseFrom k (collapsePass (k + 3) ((k + 3) * 2) words)

/-- `collapseConsecutiveRepeatedNgrams` from the worker: normalize
whitespace, return short inputs (fewer than 6 words) unchanged, otherwise
collapse adjacent repeated n-grams for gram sizes `min(20, ⌊n/2⌋)` down to 3
and re-join with single spaces (`words.join(" ").trim()`). -/
def collapseConsecutiveRepeatedNgrams (text : Str) : Str :=
  let normalized := normalizeWhitespace text
  if normalized = [] then []
  else
    let words := splitOnSpace normalized
    if words.length < 6 then normalized
    else trimWs (joinSpace (collapseFrom (min 20 (words.length / 2) - 2) words))

/-- JS `.toLowerCase()`, modelled per character. -/
def toLowerStr (s : Str) : Str := s.map Char.toLower

/-- `normalizeForCompare` from the worker. -/
def normalizeForCompare (text : Str) : Str :=
  toLowerStr (collapseConsecutiveRepeatedNgrams text)

/-- JS `s.startsWith(needle)` (first argument is the needle). -/
def startsWithStr : Str → Str → Bool
  | [], _ => true
  | _ :: _, [] => false
  | a :: as, b :: bs => a = b && startsWithStr as bs

/-- JS `s.includes(needle)` (substring test; first argument is the
haystack). -/
def strIncludes : Str → Str → Bool
  | [], needle => startsWithStr needle []
  | c :: rest, needle => startsWithStr needle (c :: rest) || strIncludes rest needle

/-- `TranscriptSegment`: a timestamped span of transcript text.  The JS float
timestamps (seconds) are modelled as exact rationals; the field `end` keeps
its source name via guillemets since `end` is a Lean keyword. -/
structure TranscriptSegment where
  text : Str
  start : ℚ
  «end» : ℚ
deriving DecidableEq, Repr

/-- The JS sort comparator `(a, b) => a.start - b.start || a.end - b.end`
orders segments lexicographically by `(start, end)`; `segLt a b` means the
comparator puts `a` strictly before `b`. -/
def segLt (a b : TranscriptSegment) : Bool :=
  decide (a.start < b.start) ||
    (decide (a.start = b.start) && decide (a.«end» < b.«end»))

/-- Insert one element into an already-sorted list, after every element the
comparator puts strictly before it (so ties keep their original order). -/
def insertSeg (x : TranscriptSegment) :
    List TranscriptSegment → List TranscriptSegment
  | [] => [x]
  | y :: ys => if segLt y x then y :: insertSeg x ys else x :: y :: ys

/-- `[...segments].sort((a, b) => a.start - b.start || a.end - b.end)`.
`Array.prototype.sort` is stable (ECMAScript 2019) and a stable sort for a
total preorder is uniquely determined, so we model it by a stable insertion
sort. -/
def sortSegs (segments : List TranscriptSegment) : List TranscriptSegment :=
  segments.foldr insertSeg []

/-- The merge test inside `dedupeSegments`: the candidate starts within
0.35 s of the current segment's end, and the normalized texts are equal or
one contains the other. -/
def segsMergeable (prev next : TranscriptSegment) : Bool :=
  let prevNorm := normalizeForCompare prev.text
  let nextNorm := normalizeForCompare next.text
  let overlaps := decide (next.start ≤ prev.«end» + (0.35 : ℚ))
  let sameOrContained :=
    decide (prevNorm = nextNorm) || strIncludes prevNorm nextNorm ||
      strIncludes nextNorm prevNorm
  sameOrContained && overlaps

/-- One iteration of the `for (const segment of sorted)` loop in
`dedupeSegments`.  `racc` is the `deduped` accumulator in reverse order, so
the mutable `deduped[deduped.length - 1]` is the head of `racc`. -/
def dedupeStep (racc : List TranscriptSegment) (segment : TranscriptSegment) :
    List TranscriptSegment :=
  let cleanedText := collapseConsecutiveRepeatedNgrams segment.text
  if cleanedText = [] then racc
  else
    let next : TranscriptSegment :=
      ⟨cleanedText, segment.start, max segment.«end» segment.start⟩
    match racc with
    | [] => [next]
    | prev :: rest =>
      if segsMergeable prev next then
        ⟨if (normalizeForCompare next.text).length >
              (normalizeForCompare prev.text).length
            then next.text else prev.text,
          prev.start, max prev.«end» next.«end»⟩ :: rest
      else next :: prev :: rest

/-- `dedupeSegments` from the worker: sort by `(start, end)`, then walk the
sorted list merging each candidate into the top of the accumulator when the
merge test fires. -/
def dedupeSegments (segments : List TranscriptSegment) :
    List TranscriptSegment :=
  ((sortSegs segments).foldl dedupeStep []).reverse

/-! ## Window construction (worker `transcribe` handler) -/

def CHUNK_LENGTH_S : Nat := 30
def STRIDE_LENGTH_S : Nat := 5
def SAMPLE_RATE : Nat := 16000
def CHUNK_JUMP_SAMPLES : Nat := (CHUNK_LENGTH_S - 2 * STRIDE_LENGTH_S) * SAMPLE_RATE
def WINDOW_SAMPLES : Nat := CHUNK_LENGTH_S * SAMPLE_RATE
def MIN_WINDOW_SAMPLES : Nat := 1 * SAMPLE_RATE

/-- Mono audio samples (JS `Float32Array` values modelled as rationals). -/
abbrev Waveform := List ℚ

/-- A `Window` built by the worker: a copied slice plus its offset in
seconds. -/
structure AudioWindow where
  data : Waveform
  offsetS : ℚ
deriving DecidableEq, Repr

/-- `padToMinLength`: zero-pad a short buffer on the right to `minLen`
samples (`new Float32Array(minLen)` is zero-initialised, `padded.set(buf)`
copies the data to the front). -/
def padToMinLength (buf : Waveform) (minLen : Nat) : Waveform :=
  if minLen ≤ buf.length then buf
  else buf ++ List.replicate (minLen - buf.length) 0

/-- The `while (offset < audio.length)` window-construction loop.  `fuel`
makes the recursion structural; `buildWindows` supplies `audio.length + 1`
fuel, which dominates the iteration count because `offset` grows by
`CHUNK_JUMP_SAMPLES = 320000 ≥ 1` per iteration. -/
def buildWindowsGo (audio : Waveform) : Nat → Nat → List AudioWindow
  | 0, _ => []
  | fuel + 1, offset =>
    if offset < audio.length then
      let endIdx := min (offset + WINDOW_SAMPLES) audio.length
      let slice := (audio.drop offset).take (endIdx - offset)
      let w : AudioWindow :=
        ⟨padToMinLength slice MIN_WINDOW_SAMPLES, (offset : ℚ) / (SAMPLE_RATE : ℚ)⟩
      if audio.length ≤ endIdx then [w]
      else w :: buildWindowsGo audio fuel (offset + CHUNK_JUMP_SAMPLES)
    else []

/-- Window construction including the source's safety net
(`if (windows.length === 0 && audio.length > 0) push the whole waveform`). -/
def buildWindows (audio : Waveform) : List AudioWindow :=
  let windows := buildWindowsGo audio (audio.length + 1) 0
  if windows.length = 0 ∧ 0 < audio.length then
    [⟨padToMinLength audio MIN_WINDOW_SAMPLES, 0⟩]
  else windows

/-- `estimateChunkCount` from the worker; `Math.ceil(x / y)` on the
non-negative reals involved equals `(x + y - 1) / y` in `ℕ`. -/
def estimateChunkCount (audioLength : Nat) : Nat :=
  if audioLength ≤ WINDOW_SAMPLES ∨ CHUNK_JUMP_SAMPLES = 0 then 1
  else (audioLength - WINDOW_SAMPLES + CHUNK_JUMP_SAMPLES - 1) / CHUNK_JUMP_SAMPLES + 1

/-! ## The per-window transcription loop (worker `transcribe` handler) -/

/-- One raw chunk of backend output.  `timestamp` is `none` when the field is
not an array (`Array.isArray(chunk.timestamp)` fails); a component is `none`
when it is not a finite number, matching what `toSafeTimestamp` checks. -/
structure RawChunk where
  text : Str
  timestamp : Option (Option ℚ × Option ℚ)
deriving DecidableEq, Repr

/-- The backend result for one window: free text plus raw chunks. -/
structure AsrResult where
  text : Str
  chunks : List RawChunk
deriving DecidableEq, Repr

/-- `toSafeTimestamp` from the worker. -/
def toSafeTimestamp : Option ℚ → ℚ → ℚ
  | none, fallback => fallback
  | some v, _ => max 0 v

/-- `normalizeProgress` from the worker (`none` models a non-number
argument). -/
def normalizeProgress : Option ℚ → ℚ
  | none => 0
  | some raw =>
    let normalized := if raw ≤ 1 then raw * 100 else raw
    max 0 (min 100 normalized)

/-- The transcription-phase events the loop posts to the main thread. -/
inductive WorkerEvent where
  | progress (progress : ℚ) (processedChunks totalChunks : Nat)
  | partialText (text : Str)
deriving DecidableEq, Repr

/-- The loop accumulators (`accumulatedTexts`, `allSegments`) together with
the posted events. -/
structure LoopAcc where
  accumulatedTexts : List Str
  allSegments : List TranscriptSegment
  events : List WorkerEvent
deriving DecidableEq, Repr

/-- The `for (const chunk of rawChunks)` collection loop: trim each chunk
text, skip empty ones, apply `toSafeTimestamp` to both timestamps (the end
falls back to the start), and shift both by the window offset. -/
def chunkToSegments (offsetS : ℚ) (chunks : List RawChunk) :
    List TranscriptSegment :=
  chunks.foldr
    (fun chunk acc =>
      let text := trimWs chunk.text
      if text = [] then acc
      else
        let ts := chunk.timestamp.getD (some 0, some 0)
        ⟨text, toSafeTimestamp ts.1 0 + offsetS,
          toSafeTimestamp ts.2 (toSafeTimestamp ts.1 0) + offsetS⟩ :: acc)
    []

/-- The body of one iteration of the per-window
`for (let i = 0; i < totalWindows; i++)` loop.  The backend
(`await transcriber(win.data, …)`) is abstracted as `call`, indexed by the
window position; `.error` models a thrown exception, which the source
catches and logs, contributing nothing.  After every window — failed or
not — a progress event with `processed = i + 1` is posted. -/
def stepWindow (call : Nat → Except Str AsrResult) (totalWindows i : Nat)
    (win : AudioWindow) (acc : LoopAcc) : LoopAcc :=
  let acc1 :=
    match call i with
    | .ok result =>
      let withSegs :=
        { acc with
            allSegments := acc.allSegments ++ chunkToSegments win.offsetS result.chunks }
      let windowText := normalizeWhitespace result.text
      if windowText = [] then withSegs
      else
        { withSegs with
            accumulatedTexts := withSegs.accumulatedTexts ++ [windowText],
            events := withSegs.events ++
              [WorkerEvent.partialText (joinSpace (withSegs.accumulatedTexts ++ [windowText]))] }
    | .error _ => acc
  { acc1 with
      events := acc1.events ++
        [WorkerEvent.progress (normalizeProgress (some (((i + 1 : Nat) : ℚ) / (totalWindows : ℚ) * 100)))
          (i + 1) totalWindows] }

/-- The per-window loop itself: run `stepWindow` on every window in order. -/
def processWindows (call : Nat → Except Str AsrResult) (totalWindows : Nat) :
    Nat → List AudioWindow → LoopAcc → LoopAcc
  | _, [], acc => acc
  | i, win :: rest, acc =>
    processWindows call totalWindows (i + 1) rest (stepWindow call totalWindows i win acc)

/-- The whole per-window phase: the initial `progress 0 / 0 of N` post
followed by the loop over all windows. -/
def runWindows (call : Nat → Except Str AsrResult)
    (windows : List AudioWindow) : LoopAcc :=
  processWindows call windows.length 0 windows
    ⟨[], [], [WorkerEvent.progress 0 0 windows.length]⟩

/-! ## Main-thread worker-message handler (`page.tsx`) -/

/-- `ProgressPhase` on the main thread. -/
inductive ProgressPhase where
  | download
  | transcribing
deriving DecidableEq, Repr

/-- The device the pipeline initialised on. -/
inductive DeviceKind where
  | webgpu
  | wasm
deriving DecidableEq, Repr

/-- Worker-side status values. -/
inductive WorkerStatus where
  | loading
  | ready
  | transcribing
  | error
deriving DecidableEq, Repr

/-- Main-thread `TranscriptionStatus`. -/
inductive TranscriptionStatus where
  | idle
  | loading
  | decoding
  | transcribing
  | ready
  | error
deriving DecidableEq, Repr

/-- The typed worker messages received by `handleWorkerMessage`.  Optional
fields are `Option`s, as in the TS union type. -/
inductive WorkerResponse where
  | status (status : WorkerStatus) (requestId : Option Nat) (detail : Option Str)
      (device : Option DeviceKind)
  | progress (phase : ProgressPhase) (progress : ℚ) (requestId : Option Nat)
      (processedChunks totalChunks : Option Nat) (currentSlice totalSlices : Option Nat)
      (loaded total : Option Nat)
  | partialText (text : Str) (requestId : Nat)
  | segments (requestId : Nat) (text : Str) (segments : List TranscriptSegment)
  | result (text : Str) (requestId : Nat)
  | error (error : Str) (requestId : Option Nat)
deriving DecidableEq, Repr

/-- The slice of main-thread React state that `handleWorkerMessage` reads or
writes; `transcribeStartedAt` is the `transcribeStartedAtRef` (a `Date.now()`
millisecond value). -/
structure UiState where
  status : TranscriptionStatus
  progress : ℚ
  progressPhase : Option ProgressPhase
  processedChunks : Option Nat
  totalChunks : Option Nat
  etaSeconds : Option ℤ
  output : Str
  segments : List TranscriptSegment
  error : Option Str
  downloadedBytes : Option Nat
  totalBytes : Option Nat
  loadingDetail : Option Str
  activeDevice : Option DeviceKind
  currentSlice : Option Nat
  totalSlices : Option Nat
  wasModelEverLoaded : Bool
  transcribeStartedAt : Option ℚ
deriving DecidableEq, Repr

/-- `clampProgress` from `page.tsx`. -/
def clampProgress (value : ℚ) : ℚ := max 0 (min 100 value)

/-- `clearProgressState` from `page.tsx`. -/
def clearProgressState (st : UiState) : UiState :=
  { st with
      progress := 0, progressPhase := none, processedChunks := none,
      totalChunks := none, etaSeconds := none, downloadedBytes := none,
      totalBytes := none, loadingDetail := none, currentSlice := none,
      totalSlices := none, transcribeStartedAt := none }

/-- `typeof message.requestId === "number" && message.requestId !== active`:
the staleness test applied by the handler. -/
def staleId (active : Nat) : Option Nat → Bool
  | some r => r != active
  | none => false

/-- JS truthiness of an optional string (`undefined`, `null` and `""` are
falsy). -/
def strTruthy : Option Str → Bool
  | none => false
  | some s => !s.isEmpty

/-- `handleWorkerMessage` from `page.tsx`.  `active` is
`activeRequestIdRef.current` at delivery time and `now` is `Date.now()` (in
milliseconds); the handler returns the updated state.  The
`localStorage.setItem` call in the ready branch is an external side effect
with no bearing on the modelled state. -/
def handleWorkerMessage (active : Nat) (now : ℚ) (st : UiState)
    (message : WorkerResponse) : UiState :=
  match message with
  | .status status requestId detail device =>
    if staleId active requestId then st
    else
      let st1 :=
        match status with
        | .loading =>
          let a := { st with status := TranscriptionStatus.loading }
          let b := if strTruthy detail then { a with loadingDetail := detail } else a
          match device with
          | some dv => { b with activeDevice := some dv }
          | none => b
        | .transcribing =>
          let a := { st with
                       status := TranscriptionStatus.transcribing,
                       loadingDetail := none, progress := 0,
                       progressPhase := some ProgressPhase.transcribing }
          match device with
          | some dv => { a with activeDevice := some dv }
          | none => a
        | .ready =>
          let a := { st with status := TranscriptionStatus.ready, loadingDetail := none }
          let b := match device with
            | some dv => { a with activeDevice := some dv }
            | none => a
          { b with
              progressPhase := none, processedChunks := none,
              totalChunks := none, etaSeconds := none, transcribeStartedAt := none,
              wasModelEverLoaded := true }
        | .error =>
          clearProgressState { st with
            status := TranscriptionStatus.error, loadingDetail := none }
      if strTruthy detail ∧ status = WorkerStatus.error then { st1 with error := detail }
      else st1
  | .progress phase progress requestId processedChunks totalChunks
      currentSlice totalSlices loaded total =>
    if phase == ProgressPhase.transcribing && staleId active requestId then st
    else
      let st1 := { st with
        progressPhase := some phase, progress := clampProgress progress }
      match phase with
      | .download =>
        let a := { st1 with
          status := TranscriptionStatus.loading,
          processedChunks := none, totalChunks := none, etaSeconds := none,
          transcribeStartedAt := none }
        let b := match loaded with
          | some l => { a with downloadedBytes := some l }
          | none => a
        match total with
        | some t => if 0 < t then { b with totalBytes := some t } else b
        | none => b
      | .transcribing =>
        let a := { st1 with
          status := TranscriptionStatus.transcribing,
          processedChunks := processedChunks, totalChunks := totalChunks }
        let b := match currentSlice with
          | some cs => { a with currentSlice := some cs }
          | none => a
        let c := match totalSlices with
          | some tsl => { b with totalSlices := some tsl }
          | none => b
        let startedAt := c.transcribeStartedAt.getD now
        let d := { c with transcribeStartedAt := some startedAt }
        match processedChunks, totalChunks with
        | some p, some t =>
          if 0 < p ∧ p ≤ t then
            let elapsedSeconds := (now - startedAt) / 1000
            let averageChunkSeconds := elapsedSeconds / (p : ℚ)
            let remainingChunks := max ((t : ℚ) - (p : ℚ)) 0
            { d with etaSeconds := some ⌈averageChunkSeconds * remainingChunks⌉ }
          else { d with etaSeconds := none }
        | _, _ => { d with etaSeconds := none }
  | .partialText text requestId =>
    if requestId ≠ active then st
    else { st with status := TranscriptionStatus.transcribing, output := text }
  | .segments requestId text segments =>
    if requestId ≠ active then st
    else
      { st with
        segments := segments, output := text,
        status := TranscriptionStatus.ready, progressPhase := none,
        processedChunks := none, totalChunks := none, etaSeconds := none,
        transcribeStartedAt := none }
  | .result text requestId =>
    if requestId ≠ active then st
    else
      { st with
        output := text, status := TranscriptionStatus.ready,
        progressPhase := none, processedChunks := none, totalChunks := none,
        etaSeconds := none, transcribeStartedAt := none }
  | .error err requestId =>
    if staleId active requestId then st
    else
      clearProgressState { st with
        status := TranscriptionStatus.error, error := some err }

/-! ## Verification auxiliaries

Definitions used only to state and prove the theorems below: the `next`
candidate local of `dedupeSegments` as a named function, canonical-form
predicates for whitespace-normalized strings, and a concrete main-thread
state used by witnesses. -/

/-- The `next` candidate built by one `dedupeSegments` iteration: cleaned
text, original start, end clamped up to the start. -/
def cleanSeg (segment : TranscriptSegment) : TranscriptSegment :=
  ⟨collapseConsecutiveRepeatedNgrams segment.text, segment.start,
    max segment.«end» segment.start⟩

/-- Canonical whitespace form: every whitespace character is a plain space
followed by a non-whitespace character (or the end).  This characterises the
strings `squeezeWs` leaves unchanged. -/
def squeezedB : Str → Bool
  | [] => true
  | c :: rest =>
    (if isWs c then
      (c == ' ') && (match rest with | [] => true | d :: _ => !isWs d)
    else true)
    && squeezedB rest

/-- The first character, if any, is not whitespace. -/
def headNotWs : Str → Bool
  | [] => true
  | c :: _ => !isWs c

/-- The last character, if any, is not whitespace. -/
def lastNotWs : Str → Bool
  | [] => true
  | [c] => !isWs c
  | _ :: c :: rest => lastNotWs (c :: rest)

/-- A 65-second clip at 16 kHz: 1 040 000 zero samples. -/
def audio65s : Waveform := List.replicate 1040000 0

/-- A concrete main-thread state used to witness the staleness theorem. -/
def uiStateEx : UiState :=
  ⟨TranscriptionStatus.transcribing, 50, some ProgressPhase.transcribing,
    some 1, some 3, some 4, str "hello", [⟨str "hello", 0, 1⟩], none, none,
    none, none, some DeviceKind.webgpu, some 1, some 1, true, some 1000⟩

/-! ## Helper lemmas: the dedupe loop step -/

theorem dedupeStep_empty {segment : TranscriptSegment}
    (racc : List TranscriptSegment)
    (h : collapseConsecutiveRepeatedNgrams segment.text = []) :
    dedupeStep racc segment = racc := by
  simp [dedupeStep, h]

theorem dedupeStep_nil {segment : TranscriptSegment}
    (h : collapseConsecutiveRepeatedNgrams segment.text ≠ []) :
    dedupeStep [] segment = [cleanSeg segment] := by
  simp [dedupeStep, h, cleanSeg]

theorem dedupeStep_merge {segment prev : TranscriptSegment}
    {rest : List TranscriptSegment}
    (h : collapseConsecutiveRepeatedNgrams segment.text ≠ [])
    (hm : segsMergeable prev (cleanSeg segment) = true) :
    dedupeStep (prev :: rest) segment =
      ⟨if (normalizeForCompare (cleanSeg segment).text).length >
            (normalizeForCompare prev.text).length
          then (cleanSeg segment).text else prev.text,
        prev.start, max prev.«end» (cleanSeg segment).«end»⟩ :: rest := by
  simp only [cleanSeg] at hm ⊢
  simp only [dedupeStep, if_neg h, hm, if_true]

theorem dedupeStep_push {segment prev : TranscriptSegment}
    {rest : List TranscriptSegment}
    (h : collapseConsecutiveRepeatedNgrams segment.text ≠ [])
    (hm : segsMergeable prev (cleanSeg segment) = false) :
    dedupeStep (prev :: rest) segment = cleanSeg segment :: prev :: rest := by
  simp only [cleanSeg] at hm ⊢
  simp only [dedupeStep, if_neg h, hm, Bool.false_eq_true, if_false]

/-! ## Helper lemmas: the sort comparator and the stable insertion sort -/

theorem segLt_iff {a b : TranscriptSegment} :
    segLt a b = true ↔ a.start < b.start ∨ (a.start = b.start ∧ a.«end» < b.«end») := by
  simp [segLt]

theorem segLt_asymm {a b : TranscriptSegment} (h : segLt a b = true) :
    segLt b a = false := by
  rw [segLt_iff] at h
  rw [Bool.eq_false_iff]
  intro hba
  rw [segLt_iff] at hba
  rcases h with h | ⟨h1, h2⟩ <;> rcases hba with hb | ⟨hb1, hb2⟩ <;> first
    | exact absurd hb (not_lt.mpr (le_of_lt h))
    | exact absurd h (by rw [hb1]; exact lt_irrefl _)
    | exact absurd hb (by rw [h1]; exact lt_irrefl _)
    | exact absurd hb2 (not_lt.mpr (le_of_lt h2))

theorem segLt_false_start_le {a b : TranscriptSegment} (h : segLt b a = false) :
    a.start ≤ b.start := by
  by_contra hlt
  rw [Bool.eq_false_iff] at h
  exact h (segLt_iff.mpr (Or.inl (lt_of_not_le hlt)))

theorem insertSeg_headEq (x : TranscriptSegment) (l : List TranscriptSegment) :
    (insertSeg x l).head? = some x ∨ (insertSeg x l).head? = l.head? := by
  cases l with
  | nil => left; rfl
  | cons y ys =>
    by_cases h : segLt y x = true
    · right; simp [insertSeg, h]
    · left; simp [insertSeg, h]

theorem chain'_insertSeg {x : TranscriptSegment} {l : List TranscriptSegment}
    (hl : l.Chain' (fun a b => segLt b a = false)) :
    (insertSeg x l).Chain' (fun a b => segLt b a = false) := by
  induction l with
  | nil => simp [insertSeg]
  | cons y ys ih =>
    rcases List.chain'_cons'.mp hl with ⟨hy, hys⟩
    by_cases h : segLt y x = true
    · rw [insertSeg, if_pos h]
      refine List.chain'_cons'.mpr ⟨?_, ih hys⟩
      intro z hz
      rcases insertSeg_headEq x ys with he | he
      · rw [he] at hz
        cases hz
        exact segLt_asymm h
      · rw [he] at hz
        exact hy z hz
    · rw [insertSeg, if_neg h]
      refine List.chain'_cons'.mpr ⟨?_, hl⟩
      intro z hz
      cases hz
      exact Bool.not_eq_true _ ▸ h

theorem sortSegs_chain (l : List TranscriptSegment) :
    (sortSegs l).Chain' (fun a b => segLt b a = false) := by
  induction l with
  | nil => simp [sortSegs]
  | cons a rest ih => exact chain'_insertSeg ih

theorem sortSegs_of_chain {l : List TranscriptSegment}
    (h : l.Chain' (fun a b => segLt b a = false)) : sortSegs l = l := by
  induction l with
  | nil => rfl
  | cons a rest ih =>
    have hs : sortSegs (a :: rest) = insertSeg a (sortSegs rest) := rfl
    rw [hs, ih h.tail]
    cases rest with
    | nil => rfl
    | cons y ys =>
      have hy : segLt y a = false := (List.chain'_cons'.mp h).1 y rfl
      rw [insertSeg, if_neg (by simp [hy])]

/-! ## Helper lemmas: the dedupe fold invariant -/

theorem dedupe_fold_invariant :
    ∀ (l racc : List TranscriptSegment),
      (∀ x ∈ racc, x.start ≤ x.«end») →
      racc.Chain' (fun a b => b.start ≤ a.start) →
      (∀ y ∈ l, ∀ x ∈ racc, x.start ≤ y.start) →
      l.Pairwise (fun a b => a.start ≤ b.start) →
      (∀ x ∈ List.foldl dedupeStep racc l, x.start ≤ x.«end»)
      ∧ (List.foldl dedupeStep racc l).Chain' (fun a b => b.start ≤ a.start) := by
  intro l
  induction l with
  | nil => intro racc h1 h2 _ _; exact ⟨h1, h2⟩
  | cons s l ih =>
    intro racc h1 h2 h3 h4
    simp only [List.foldl_cons]
    have hstep : (∀ x ∈ dedupeStep racc s, x.start ≤ x.«end»)
        ∧ (dedupeStep racc s).Chain' (fun a b => b.start ≤ a.start)
        ∧ (∀ y ∈ l, ∀ x ∈ dedupeStep racc s, x.start ≤ y.start) := by
      by_cases hc : collapseConsecutiveRepeatedNgrams s.text = []
      · rw [dedupeStep_empty racc hc]
        exact ⟨h1, h2, fun y hy x hx => h3 y (List.mem_cons_of_mem _ hy) x hx⟩
      · match racc, h1, h2, h3 with
        | [], _, _, _ =>
          rw [dedupeStep_nil hc]
          refine ⟨?_, List.chain'_singleton _, ?_⟩
          · intro x hx
            simp only [List.mem_singleton] at hx
            subst hx
            exact le_max_right _ _
          · intro y hy x hx
            simp only [List.mem_singleton] at hx
            subst hx
            exact List.rel_of_pairwise_cons h4 hy
        | prev :: rest, h1, h2, h3 =>
          by_cases hm : segsMergeable prev (cleanSeg s) = true
          · rw [dedupeStep_merge hc hm]
            refine ⟨?_, ?_, ?_⟩
            · intro x hx
              rcases List.mem_cons.mp hx with hx | hx
              · subst hx
                exact le_trans (h1 prev (List.mem_cons_self _ _)) (le_max_left _ _)
              · exact h1 x (List.mem_cons_of_mem _ hx)
            · refine List.chain'_cons'.mpr ⟨?_, (List.chain'_cons'.mp h2).2⟩
              intro z hz
              exact (List.chain'_cons'.mp h2).1 z hz
            · intro y hy x hx
              rcases List.mem_cons.mp hx with hx | hx
              · subst hx
                exact h3 y (List.mem_cons_of_mem _ hy) prev (List.mem_cons_self _ _)
              · exact h3 y (List.mem_cons_of_mem _ hy) x (List.mem_cons_of_mem _ hx)
          · rw [dedupeStep_push hc (by simpa using hm)]
            refine ⟨?_, ?_, ?_⟩
            · intro x hx
              rcases List.mem_cons.mp hx with hx | hx
              · subst hx
                exact le_max_right _ _
              · exact h1 x hx
            · refine List.Chain'.cons ?_ h2
              exact h3 s (List.mem_cons_self _ _) prev (List.mem_cons_self _ _)
            · intro y hy x hx
              rcases List.mem_cons.mp hx with hx | hx
              · subst hx
                exact List.rel_of_pairwise_cons h4 hy
              · exact h3 y (List.mem_cons_of_mem _ hy) x hx
    exact ih _ hstep.1 hstep.2.1 hstep.2.2 h4.of_cons

/-! ## Theorems -/

/-- **C7** (counterexample).  The spec example claims
`TextNormalizer("the cat the cat sat") = "the cat sat"`; it does not: the
input has 5 words, below the 6-word minimum (and gram size 2 is below the
minimum gram size 3), so the collapse returns it unchanged. -/
theorem c7_counterexample :
    collapseConsecutiveRepeatedNgrams (str "the cat the cat sat") ≠ str "the cat sat" := by
  decide

/-- **C7** (amended).  `TextNormalizer` applied to "the cat the cat sat"
returns the input unchanged: the input has 5 words, and inputs shorter than
6 words are returned as-is (moreover gram sizes below 3 are never
collapsed). -/
theorem c7_short_input_unchanged :
    collapseConsecutiveRepeatedNgrams (str "the cat the cat sat")
      = str "the cat the cat sat" := by
  decide

/-- **C8** (code bug).  On the zero-length waveform the window-construction
step yields an empty window list, not the single zero-padded window the spec
promises: the safety net `if (windows.length === 0 && audio.length > 0)` can
never fire for empty audio (its own comment says "if audio was empty, push
the whole thing", contradicting the `audio.length > 0` guard), and
`windows.length === 0` happens only when `audio.length === 0`. -/
theorem c8_empty_audio_yields_no_window : buildWindows ([] : Waveform) = [] := by
  decide

/-- **C1** (counterexample).  The claim "exactly 1 window when
`len ≤ L·rate`" fails at `len = 0`: the loop produces no window at all. -/
theorem c1_counterexample : (buildWindows ([] : Waveform)).length ≠ 1 := by
  decide

/-- **C5** (counterexample).  `TextNormalizer` is not idempotent: on
"a b c d b c d a b c d" the first pass removes the doubled trigram "b c d"
(gram size 3), which creates the adjacent repeated 4-gram
"a b c d a b c d" — but gram size 4 was already processed, so the repeat
survives the first pass and is only collapsed by a second application. -/
theorem c5_counterexample :
    collapseConsecutiveRepeatedNgrams
        (collapseConsecutiveRepeatedNgrams (str "a b c d b c d a b c d"))
      ≠ collapseConsecutiveRepeatedNgrams (str "a b c d b c d a b c d") := by
  decide

/-- **C6** (counterexample).  `dedupeSegments` is not idempotent on its own
output: the single input segment "a b c d b c d a b c d" is stored with
cleaned text "a b c d a b c d" (see `c5_counterexample`), and a second
`dedupeSegments` run re-cleans that text down to "a b c d". -/
theorem c6_counterexample :
    dedupeSegments (dedupeSegments [⟨str "a b c d b c d a b c d", 0, 1⟩])
      ≠ dedupeSegments [⟨str "a b c d b c d a b c d", 0, 1⟩] := by
  decide

/-- **C2** (counterexample).  When two overlapping same-content segments
merge, the claim says the merged text is "whichever raw text is longer"; the
code instead compares the lengths of the *normalized* texts.  Here the
stored segment text "a b c d a b c d" (15 characters, normalizing to
"a b c d") merges with the candidate "x a b c d x" (11 characters,
normalizing to itself): both merge conditions hold, the candidate's raw text
is the shorter one, yet the merged segment keeps the candidate's text. -/
theorem c2_counterexample :
    segsMergeable ⟨str "a b c d a b c d", 0, 1⟩ ⟨str "x a b c d x", 1.2, 2⟩ = true
    ∧ dedupeStep [⟨str "a b c d a b c d", 0, 1⟩] ⟨str "x a b c d x", 1.2, 2⟩
        = [⟨str "x a b c d x", 0, 2⟩]
    ∧ dedupeSegments
        [⟨str "a b c d b c d a b c d", 0, 1⟩, ⟨str "x a b c d x", 1.2, 2⟩]
        = [⟨str "x a b c d x", 0, 2⟩]
    ∧ (str "x a b c d x").length < (str "a b c d a b c d").length := by
  refine ⟨by decide, by decide, by decide, by decide⟩

/-- **C4** (confirmed).  A `partial`, `segments` or `result` event whose
`requestId` differs from the active request id at delivery time leaves the
main-thread state completely unchanged. -/
theorem c4_stale_events_ignored (active : Nat) (now : ℚ) (st : UiState) :
    (∀ text requestId, requestId ≠ active →
      handleWorkerMessage active now st (WorkerResponse.partialText text requestId) = st)
    ∧ (∀ requestId text segs, requestId ≠ active →
        handleWorkerMessage active now st (WorkerResponse.segments requestId text segs) = st)
    ∧ (∀ text requestId, requestId ≠ active →
        handleWorkerMessage active now st (WorkerResponse.result text requestId) = st) := by
  refine ⟨fun text r h => ?_, fun r text segs h => ?_, fun text r h => ?_⟩ <;>
    simp [handleWorkerMessage, h]

/-- Witness for `c4_stale_events_ignored`: after request 1 is cancelled and
request 2 is active, a late `partial`, `segments` or `result` event for
request 1 does not change the observed state. -/
theorem c4_witness :
    handleWorkerMessage 2 0 uiStateEx (WorkerResponse.partialText (str "late") 1) = uiStateEx
    ∧ handleWorkerMessage 2 0 uiStateEx (WorkerResponse.segments 1 (str "late") []) = uiStateEx
    ∧ handleWorkerMessage 2 0 uiStateEx (WorkerResponse.result (str "late") 1) = uiStateEx :=
  ⟨(c4_stale_events_ignored 2 0 uiStateEx).1 (str "late") 1 (by decide),
    (c4_stale_events_ignored 2 0 uiStateEx).2.1 1 (str "late") [] (by decide),
    (c4_stale_events_ignored 2 0 uiStateEx).2.2 (str "late") 1 (by decide)⟩

/-- **C2** (amended).  In `dedupeSegments`, whenever the candidate's start is
within 0.35 s of the current segment's end and the normalized texts are equal
or one contains the other, the two are merged into a single segment whose end
is the maximum of the two ends and whose text is whichever text has the
longer *normalized* (repeat-collapsed, lower-cased) form — the current text
on ties; in particular `{"hello world", 10.0, 11.0}` and
`{"hello world", 10.2, 11.3}` merge into `{"hello world", 10.0, 11.3}`.
(The original claim's "whichever raw text is longer" is refuted by
`c2_counterexample`.) -/
theorem c2_merge_semantics :
    (∀ (prev segment : TranscriptSegment) (rest : List TranscriptSegment),
      collapseConsecutiveRepeatedNgrams segment.text ≠ [] →
      segment.start ≤ prev.«end» + (0.35 : ℚ) →
      (normalizeForCompare prev.text
          = normalizeForCompare (collapseConsecutiveRepeatedNgrams segment.text)
        ∨ strIncludes (normalizeForCompare prev.text)
            (normalizeForCompare (collapseConsecutiveRepeatedNgrams segment.text)) = true
        ∨ strIncludes (normalizeForCompare (collapseConsecutiveRepeatedNgrams segment.text))
            (normalizeForCompare prev.text) = true) →
      dedupeStep (prev :: rest) segment =
        ⟨if (normalizeForCompare (collapseConsecutiveRepeatedNgrams segment.text)).length >
              (normalizeForCompare prev.text).length
            then collapseConsecutiveRepeatedNgrams segment.text else prev.text,
          prev.start, max prev.«end» (max segment.«end» segment.start)⟩ :: rest)
    ∧ dedupeSegments [⟨str "hello world", 10, 11⟩, ⟨str "hello world", 10.2, 11.3⟩]
        = [⟨str "hello world", 10, 11.3⟩] := by
  constructor
  · intro prev segment rest hne hov hsame
    have hm : segsMergeable prev
        ⟨collapseConsecutiveRepeatedNgrams segment.text, segment.start,
          max segment.«end» segment.start⟩ = true := by
      simp only [segsMergeable, Bool.and_eq_true, Bool.or_eq_true, decide_eq_true_eq]
      exact ⟨by tauto, hov⟩
    simp only [dedupeStep, if_neg hne, hm, if_true]
  · decide

/-- Witness for `c2_merge_semantics`: the spec's own example discharged
through the theorem — the two "hello world" segments satisfy all merge
conditions and produce the merged segment with the maximal end. -/
theorem c2_witness :
    dedupeStep [⟨str "hello world", 10, 11⟩] ⟨str "hello world", 10.2, 11.3⟩ =
      [⟨if (normalizeForCompare (collapseConsecutiveRepeatedNgrams
              (str "hello world"))).length >
            (normalizeForCompare (str "hello world")).length
          then collapseConsecutiveRepeatedNgrams (str "hello world")
          else str "hello world",
        10, max 11 (max (11.3 : ℚ) 10.2)⟩] :=
  c2_merge_semantics.1 ⟨str "hello world", 10, 11⟩ ⟨str "hello world", 10.2, 11.3⟩ []
    (by decide) (by decide) (Or.inl (by decide))

/-- **C9** (confirmed).  For every input list, the output of
`dedupeSegments` is sorted non-decreasingly by `start`, and every output
segment satisfies `start ≤ end`, even when an input segment has
`end < start`. -/
theorem c9_sorted_wellformed (segments : List TranscriptSegment) :
    (dedupeSegments segments).Pairwise (fun a b => a.start ≤ b.start)
    ∧ ∀ seg ∈ dedupeSegments segments, seg.start ≤ seg.«end» := by
  haveI : IsTrans TranscriptSegment (fun a b => a.start ≤ b.start) :=
    ⟨fun _ _ _ hab hbc => le_trans hab hbc⟩
  have hp : (sortSegs segments).Pairwise (fun a b => a.start ≤ b.start) := by
    rw [← List.chain'_iff_pairwise]
    exact (sortSegs_chain segments).imp fun _ _ h => segLt_false_start_le h
  have main := dedupe_fold_invariant (sortSegs segments) []
    (by simp) (by simp) (by simp) hp
  constructor
  · rw [← List.chain'_iff_pairwise, dedupeSegments, List.chain'_reverse]
    exact main.2
  · intro seg hseg
    rw [dedupeSegments, List.mem_reverse] at hseg
    exact main.1 seg hseg

/-- Witness for `c9_sorted_wellformed`: an input segment with `end < start`
comes out with its end clamped up to its start, and the output is sorted. -/
theorem c9_witness :
    (dedupeSegments [⟨str "b a", 2, 1⟩]).Pairwise (fun a b => a.start ≤ b.start)
    ∧ (⟨str "b a", 2, 2⟩ : TranscriptSegment).start
        ≤ (⟨str "b a", 2, 2⟩ : TranscriptSegment).«end» :=
  ⟨(c9_sorted_wellformed [⟨str "b a", 2, 1⟩]).1,
    (c9_sorted_wellformed [⟨str "b a", 2, 1⟩]).2 ⟨str "b a", 2, 2⟩ (by decide)⟩

/-- **C10** (confirmed).  A segment whose text cleans to the empty string is
dropped by the dedupe step regardless of its timestamps, and every segment in
the output of `dedupeSegments` has non-empty text. -/
theorem c10_blank_segments_dropped :
    (∀ (racc : List TranscriptSegment) (segment : TranscriptSegment),
      collapseConsecutiveRepeatedNgrams segment.text = [] →
      dedupeStep racc segment = racc)
    ∧ ∀ (segments : List TranscriptSegment),
        ∀ out ∈ dedupeSegments segments, out.text ≠ [] := by
  constructor
  · intro racc segment h
    exact dedupeStep_empty racc h
  · have main : ∀ (l racc : List TranscriptSegment),
        (∀ x ∈ racc, x.text ≠ []) →
        ∀ x ∈ List.foldl dedupeStep racc l, x.text ≠ [] := by
      intro l
      induction l with
      | nil => intro racc h x hx; exact h x hx
      | cons s l ih =>
        intro racc h
        simp only [List.foldl_cons]
        apply ih
        intro x hx
        by_cases hc : collapseConsecutiveRepeatedNgrams s.text = []
        · rw [dedupeStep_empty racc hc] at hx
          exact h x hx
        · match racc, h with
          | [], _ =>
            rw [dedupeStep_nil hc] at hx
            simp only [List.mem_singleton] at hx
            subst hx
            exact hc
          | prev :: rest, h =>
            by_cases hm : segsMergeable prev (cleanSeg s) = true
            · rw [dedupeStep_merge hc hm] at hx
              rcases List.mem_cons.mp hx with hx | hx
              · subst hx
                dsimp only
                split
                · exact hc
                · exact h prev (List.mem_cons_self _ _)
              · exact h x (List.mem_cons_of_mem _ hx)
            · rw [dedupeStep_push hc (Bool.not_eq_true _ ▸ hm)] at hx
              rcases List.mem_cons.mp hx with hx | hx
              · subst hx; exact hc
              · exact h x hx
    intro segments out hout
    rw [dedupeSegments, List.mem_reverse] at hout
    exact main _ [] (by simp) out hout

/-- Witness for `c10_blank_segments_dropped`: a whitespace-only segment with
arbitrary timestamps contributes nothing, and a surviving output segment has
non-empty text. -/
theorem c10_witness :
    dedupeStep [] ⟨str "   ", 5, 2⟩ = []
    ∧ (⟨str "hi", 0, 1⟩ : TranscriptSegment).text ≠ [] :=
  ⟨c10_blank_segments_dropped.1 [] ⟨str "   ", 5, 2⟩ (by decide),
    c10_blank_segments_dropped.2 [⟨str "hi", 0, 1⟩] ⟨str "hi", 0, 1⟩ (by decide)⟩

/-- `cleanSeg` is the identity on a segment whose text is a fixed point of
the collapse and whose end is at least its start. -/
theorem cleanSeg_fixed {s : TranscriptSegment}
    (hfix : collapseConsecutiveRepeatedNgrams s.text = s.text)
    (hse : s.start ≤ s.«end») : cleanSeg s = s := by
  simp [cleanSeg, hfix, max_eq_left hse]

/-- When every remaining segment is already clean and no adjacent pair is
mergeable, the dedupe fold just replays the list onto the accumulator. -/
theorem dedupe_fold_fixed :
    ∀ (l : List TranscriptSegment) (prev : TranscriptSegment)
      (racc : List TranscriptSegment),
      (∀ x ∈ l, collapseConsecutiveRepeatedNgrams x.text = x.text
        ∧ x.text ≠ [] ∧ x.start ≤ x.«end») →
      (prev :: l).Chain' (fun a b => segsMergeable a b = false) →
      List.foldl dedupeStep (prev :: racc) l = l.reverse ++ prev :: racc := by
  intro l
  induction l with
  | nil => intro prev racc _ _; rfl
  | cons s l ih =>
    intro prev racc hx hchain
    obtain ⟨hfix, hne, hse⟩ := hx s (List.mem_cons_self _ _)
    have hclean : cleanSeg s = s := cleanSeg_fixed hfix hse
    have hns : collapseConsecutiveRepeatedNgrams s.text ≠ [] := by
      rw [hfix]; exact hne
    have hmf : segsMergeable prev (cleanSeg s) = false := by
      rw [hclean]
      exact (List.chain'_cons'.mp hchain).1 s rfl
    simp only [List.foldl_cons]
    rw [dedupeStep_push hns hmf, hclean]
    rw [ih s (prev :: racc) (fun x hxm => hx x (List.mem_cons_of_mem _ hxm))
      (List.chain'_cons'.mp hchain).2]
    simp [List.append_assoc]

/-- **C6** (amended).  `dedupeSegments` is a no-op on every list that is
sorted by the comparator, whose segment texts are fixed points of the
repeat collapse and non-empty with `start ≤ end`, and in which no adjacent
pair satisfies the merge predicate.  Without these conditions a second
application can merge or shrink further — the original idempotence claim is
refuted by `c6_counterexample`. -/
theorem c6_fixed_point (R : List TranscriptSegment)
    (hsorted : R.Chain' (fun a b => segLt b a = false))
    (hfix : ∀ x ∈ R, collapseConsecutiveRepeatedNgrams x.text = x.text
      ∧ x.text ≠ [] ∧ x.start ≤ x.«end»)
    (hnomerge : R.Chain' (fun a b => segsMergeable a b = false)) :
    dedupeSegments R = R := by
  rw [dedupeSegments, sortSegs_of_chain hsorted]
  cases R with
  | nil => rfl
  | cons a rest =>
    obtain ⟨hfa, hna, hsa⟩ := hfix a (List.mem_cons_self _ _)
    simp only [List.foldl_cons]
    rw [dedupeStep_nil (by rw [hfa]; exact hna), cleanSeg_fixed hfa hsa]
    rw [dedupe_fold_fixed rest a []
      (fun x hxm => hfix x (List.mem_cons_of_mem _ hxm)) hnomerge]
    simp

/-- Witness for `c6_fixed_point`: a two-segment merged-form list is left
unchanged by another `dedupeSegments` pass. -/
theorem c6_witness :
    dedupeSegments [⟨str "hello", 0, 1⟩, ⟨str "bye", 5, 6⟩]
      = [⟨str "hello", 0, 1⟩, ⟨str "bye", 5, 6⟩] :=
  c6_fixed_point _ (List.Chain'.cons (by decide) (List.chain'_singleton _))
    (by decide) (List.Chain'.cons (by decide) (List.chain'_singleton _))

/-! ## Helper lemmas: canonical whitespace form

`squeezedB`/`headNotWs`/`lastNotWs` characterise the strings on which the
three stages of `normalizeWhitespace` are the identity; together they give
idempotence of whitespace normalization. -/

theorem squeezedB_cons (c : Char) (l : Str) :
    squeezedB (c :: l) =
      ((if isWs c then (c == ' ') && headNotWs l else true) && squeezedB l) := by
  cases l <;> rfl

theorem squeezedB_head_ws {d : Char} {l : Str}
    (h : squeezedB (d :: l) = true) (hw : isWs d = true) : d = ' ' := by
  rw [squeezedB_cons, hw, if_pos rfl, Bool.and_eq_true, Bool.and_eq_true, beq_iff_eq] at h
  exact h.1.1

theorem squeezedB_squeezeWs (s : Str) : squeezedB (squeezeWs s) = true := by
  induction s with
  | nil => rfl
  | cons c rest ih =>
    simp only [squeezeWs]
    by_cases hw : isWs c
    · rw [if_pos hw]
      by_cases hh : (squeezeWs rest).head? = some ' '
      · rw [if_pos hh]; exact ih
      · rw [if_neg hh]
        cases hsr : squeezeWs rest with
        | nil => decide
        | cons d ds =>
          have ih2 : squeezedB (d :: ds) = true := hsr ▸ ih
          have hd : isWs d = false := by
            rw [Bool.eq_false_iff]
            intro hdw
            apply hh
            rw [hsr, List.head?_cons, squeezedB_head_ws ih2 hdw]
          rw [squeezedB_cons, Bool.and_eq_true]
          refine ⟨?_, ih2⟩
          have : headNotWs (d :: ds) = true := by
            simp [headNotWs, hd]
          rw [if_pos (by decide : isWs ' ' = true), this]
          decide
    · rw [if_neg hw]
      rw [squeezedB_cons, if_neg hw, Bool.true_and]
      exact ih

theorem squeezeWs_of_squeezedB {s : Str} (h : squeezedB s = true) :
    squeezeWs s = s := by
  induction s with
  | nil => rfl
  | cons c rest ih =>
    rw [squeezedB_cons, Bool.and_eq_true] at h
    obtain ⟨hc, hrest⟩ := h
    simp only [squeezeWs, ih hrest]
    by_cases hw : isWs c
    · rw [if_pos hw]
      rw [if_pos hw, Bool.and_eq_true, beq_iff_eq] at hc
      obtain ⟨hsp, hhead⟩ := hc
      have hne : ¬ rest.head? = some ' ' := by
        cases rest with
        | nil => simp
        | cons d ds =>
          simp only [List.head?_cons, Option.some_inj]
          intro hd
          rw [headNotWs, hd] at hhead
          revert hhead
          decide
      rw [if_neg hne, hsp]
    · rw [if_neg hw]

theorem squeezedB_dropWhile {s : Str} (h : squeezedB s = true) :
    squeezedB (s.dropWhile isWs) = true := by
  induction s with
  | nil => exact h
  | cons c rest ih =>
    rw [squeezedB_cons, Bool.and_eq_true] at h
    rw [List.dropWhile_cons]
    by_cases hw : isWs c
    · rw [if_pos hw]
      exact ih h.2
    · rw [if_neg hw]
      rw [squeezedB_cons, Bool.and_eq_true]
      exact ⟨by rw [if_neg hw], h.2⟩

theorem trimRight_head {s : Str} {d : Char} {ds : Str}
    (h : trimRight s = d :: ds) : s.head? = some d := by
  cases s with
  | nil => exact absurd h (by simp [trimRight])
  | cons c rest =>
    rw [List.head?_cons, Option.some_inj]
    simp only [trimRight] at h
    cases htr : trimRight rest with
    | nil =>
      rw [htr] at h
      by_cases hw : isWs c
      · rw [if_pos hw] at h; exact absurd h (by simp)
      · rw [if_neg hw] at h
        exact ((List.cons.injEq _ _ _ _).mp h).1
    | cons e es =>
      rw [htr] at h
      exact ((List.cons.injEq _ _ _ _).mp h).1

theorem squeezedB_trimRight {s : Str} (h : squeezedB s = true) :
    squeezedB (trimRight s) = true := by
  induction s with
  | nil => exact h
  | cons c rest ih =>
    rw [squeezedB_cons, Bool.and_eq_true] at h
    obtain ⟨hc, hrest⟩ := h
    simp only [trimRight]
    cases htr : trimRight rest with
    | nil =>
      by_cases hw : isWs c
      · rw [if_pos hw]; rfl
      · rw [if_neg hw]
        rw [squeezedB_cons, if_neg hw]
        decide
    | cons e es =>
      have ih2 : squeezedB (e :: es) = true := htr ▸ ih hrest
      rw [squeezedB_cons, Bool.and_eq_true]
      refine ⟨?_, ih2⟩
      by_cases hw : isWs c
      · rw [if_pos hw]
        rw [if_pos hw, Bool.and_eq_true] at hc
        rw [Bool.and_eq_true]
        refine ⟨hc.1, ?_⟩
        cases rest with
        | nil => exact absurd htr (by simp [trimRight])
        | cons f fs =>
          have : f = e := by
            have := trimRight_head htr
            rw [List.head?_cons, Option.some_inj] at this
            exact this
          rw [headNotWs]
          rw [headNotWs, this] at hc
          exact hc.2
      · rw [if_neg hw]

theorem lastNotWs_trimRight (s : Str) : lastNotWs (trimRight s) = true := by
  induction s with
  | nil => rfl
  | cons c rest ih =>
    simp only [trimRight]
    cases htr : trimRight rest with
    | nil =>
      by_cases hw : isWs c
      · rw [if_pos hw]; rfl
      · rw [if_neg hw]
        simp [lastNotWs, hw]
    | cons e es =>
      rw [htr] at ih
      exact ih

theorem trimRight_of_lastNotWs {s : Str} (h : lastNotWs s = true) :
    trimRight s = s := by
  induction s with
  | nil => rfl
  | cons c rest ih =>
    cases rest with
    | nil =>
      rw [lastNotWs] at h
      simp only [trimRight]
      rw [if_neg (by simp at h; simp [h])]
    | cons d ds =>
      rw [lastNotWs] at h
      have htr := ih h
      show (match trimRight (d :: ds) with
        | [] => if isWs c = true then [] else [c]
        | r => c :: r) = c :: d :: ds
      rw [htr]

theorem headNotWs_dropWhile (s : Str) : headNotWs (s.dropWhile isWs) = true := by
  induction s with
  | nil => rfl
  | cons c rest ih =>
    rw [List.dropWhile_cons]
    by_cases hw : isWs c
    · rw [if_pos hw]; exact ih
    · rw [if_neg hw]
      simp [headNotWs, hw]

theorem dropWhile_of_headNotWs {s : Str} (h : headNotWs s = true) :
    s.dropWhile isWs = s := by
  cases s with
  | nil => rfl
  | cons c rest =>
    rw [headNotWs] at h
    rw [List.dropWhile_cons, if_neg (by simp at h; simp [h])]

theorem headNotWs_trimRight {s : Str} (h : headNotWs s = true) :
    headNotWs (trimRight s) = true := by
  cases s with
  | nil => rfl
  | cons c rest =>
    rw [headNotWs] at h
    simp only [trimRight]
    cases trimRight rest with
    | nil =>
      by_cases hw : isWs c
      · rw [if_pos hw]; rfl
      · rw [if_neg hw]
        simp [headNotWs, hw]
    | cons e es =>
      rw [headNotWs]
      exact h

theorem normalizeWhitespace_idem (s : Str) :
    normalizeWhitespace (normalizeWhitespace s) = normalizeWhitespace s := by
  have hsq : squeezedB (normalizeWhitespace s) = true :=
    squeezedB_trimRight (squeezedB_dropWhile (squeezedB_squeezeWs s))
  have hh : headNotWs (normalizeWhitespace s) = true :=
    headNotWs_trimRight (headNotWs_dropWhile _)
  have hl : lastNotWs (normalizeWhitespace s) = true := lastNotWs_trimRight _
  calc normalizeWhitespace (normalizeWhitespace s)
      = trimRight ((squeezeWs (normalizeWhitespace s)).dropWhile isWs) := rfl
    _ = trimRight ((normalizeWhitespace s).dropWhile isWs) := by
        rw [squeezeWs_of_squeezedB hsq]
    _ = trimRight (normalizeWhitespace s) := by rw [dropWhile_of_headNotWs hh]
    _ = normalizeWhitespace s := trimRight_of_lastNotWs hl

/-- **C5** (amended).  `TextNormalizer` is idempotent on every input whose
whitespace-normalized form has fewer than 6 words (such inputs are returned
whitespace-normalized, and whitespace normalization is idempotent).  On
longer inputs idempotence fails: see `c5_counterexample`. -/
theorem c5_short_input_idempotent (s : Str)
    (hshort : (splitOnSpace (normalizeWhitespace s)).length < 6) :
    collapseConsecutiveRepeatedNgrams (collapseConsecutiveRepeatedNgrams s)
      = collapseConsecutiveRepeatedNgrams s := by
  by_cases hz : normalizeWhitespace s = []
  · have h1 : collapseConsecutiveRepeatedNgrams s = [] := by
      simp only [collapseConsecutiveRepeatedNgrams]
      rw [if_pos hz]
    rw [h1]
    decide
  · have h1 : collapseConsecutiveRepeatedNgrams s = normalizeWhitespace s := by
      simp only [collapseConsecutiveRepeatedNgrams]
      rw [if_neg hz, if_pos hshort]
    rw [h1]
    simp only [collapseConsecutiveRepeatedNgrams, normalizeWhitespace_idem]
    rw [if_neg hz, if_pos hshort]

/-- Witness for `c5_short_input_idempotent` at a concrete 3-word input. -/
theorem c5_witness :
    (splitOnSpace (normalizeWhitespace (str "hi there you"))).length < 6
    ∧ collapseConsecutiveRepeatedNgrams
        (collapseConsecutiveRepeatedNgrams (str "hi there you"))
      = collapseConsecutiveRepeatedNgrams (str "hi there you") :=
  ⟨by decide, c5_short_input_idempotent (str "hi there you") (by decide)⟩

/-! ## Helper lemmas: the per-window loop -/

theorem stepWindow_events (call : Nat → Except Str AsrResult)
    (total i : Nat) (w : AudioWindow) (acc : LoopAcc) :
    ∃ t, (stepWindow call total i w acc).events = acc.events ++ t
      ∧ WorkerEvent.progress
          (normalizeProgress (some (((i + 1 : Nat) : ℚ) / (total : ℚ) * 100)))
          (i + 1) total ∈ t := by
  unfold stepWindow
  cases call i with
  | error e => exact ⟨_, rfl, by simp⟩
  | ok result =>
    dsimp only
    by_cases hw : normalizeWhitespace result.text = []
    · rw [if_pos hw]
      exact ⟨_, rfl, by simp⟩
    · rw [if_neg hw]
      dsimp only
      exact ⟨_, List.append_assoc _ _ _, by simp⟩

theorem processWindows_events_grow (call : Nat → Except Str AsrResult)
    (total : Nat) :
    ∀ (l : List AudioWindow) (i : Nat) (acc : LoopAcc),
      ∃ t, (processWindows call total i l acc).events = acc.events ++ t := by
  intro l
  induction l with
  | nil => intro i acc; exact ⟨[], by simp [processWindows]⟩
  | cons w l ih =>
    intro i acc
    obtain ⟨t1, ht1, _⟩ := stepWindow_events call total i w acc
    obtain ⟨t2, ht2⟩ := ih (i + 1) (stepWindow call total i w acc)
    refine ⟨t1 ++ t2, ?_⟩
    show (processWindows call total (i + 1) l (stepWindow call total i w acc)).events = _
    rw [ht2, ht1, List.append_assoc]

theorem processWindows_progress_mem (call : Nat → Except Str AsrResult)
    (total : Nat) :
    ∀ (l : List AudioWindow) (i : Nat) (acc : LoopAcc) (j : Nat), j < l.length →
      WorkerEvent.progress
          (normalizeProgress (some (((i + j + 1 : Nat) : ℚ) / (total : ℚ) * 100)))
          (i + j + 1) total ∈ (processWindows call total i l acc).events := by
  intro l
  induction l with
  | nil => intro i acc j hj; exact absurd hj (by simp)
  | cons w l ih =>
    intro i acc j hj
    show _ ∈ (processWindows call total (i + 1) l (stepWindow call total i w acc)).events
    cases j with
    | zero =>
      obtain ⟨t1, ht1, hmem⟩ := stepWindow_events call total i w acc
      obtain ⟨t2, ht2⟩ := processWindows_events_grow call total l (i + 1)
        (stepWindow call total i w acc)
      rw [ht2, ht1]
      simp only [Nat.add_zero]
      exact List.mem_append.mpr (Or.inl (List.mem_append.mpr (Or.inr hmem)))
    | succ j' =>
      have harith : i + (j' + 1) + 1 = (i + 1) + j' + 1 := by omega
      rw [harith]
      exact ih (i + 1) (stepWindow call total i w acc) j' (by simpa using hj)

theorem stepWindow_error_override {call : Nat → Except Str AsrResult}
    {k : Nat} {e : Str} (hk : call k = Except.error e)
    (total : Nat) (w : AudioWindow) (acc : LoopAcc) :
    stepWindow call total k w acc
      = stepWindow (fun j => if j = k then Except.ok ⟨[], []⟩ else call j)
          total k w acc := by
  have hnw : normalizeWhitespace ([] : Str) = [] := rfl
  simp only [stepWindow, hk, if_pos rfl, chunkToSegments, List.foldr_nil,
    List.append_nil, hnw, if_true]

theorem processWindows_override {call : Nat → Except Str AsrResult}
    {k : Nat} {e : Str} (hk : call k = Except.error e) (total : Nat) :
    ∀ (l : List AudioWindow) (i : Nat) (acc : LoopAcc),
      processWindows call total i l acc
        = processWindows (fun j => if j = k then Except.ok ⟨[], []⟩ else call j)
            total i l acc := by
  intro l
  induction l with
  | nil => intro i acc; rfl
  | cons w l ih =>
    intro i acc
    show processWindows call total (i + 1) l (stepWindow call total i w acc)
      = processWindows _ total (i + 1) l (stepWindow _ total i w acc)
    by_cases hik : i = k
    · subst hik
      rw [← stepWindow_error_override hk total w acc]
      exact ih (i + 1) (stepWindow call total i w acc)
    · have hstep : stepWindow (fun j => if j = k then Except.ok ⟨[], []⟩ else call j)
          total i w acc = stepWindow call total i w acc := by
        simp only [stepWindow, if_neg hik]
      rw [hstep]
      exact ih (i + 1) (stepWindow call total i w acc)

/-- **C3** (confirmed).  If the backend call for window `i` throws, the run
is identical to a run in which window `i` returns an empty result — it
contributes zero segments and zero text — the loop still processes every
window, and a progress event with `processed = i + 1`, `total = N` is still
posted for window `i` (indeed for every window). -/
theorem c3_failed_window_skipped (call : Nat → Except Str AsrResult)
    (windows : List AudioWindow) (i : Nat) (e : Str)
    (hi : i < windows.length) (herr : call i = Except.error e) :
    runWindows call windows
      = runWindows (fun j => if j = i then Except.ok ⟨[], []⟩ else call j) windows
    ∧ WorkerEvent.progress
        (normalizeProgress (some (((i + 1 : Nat) : ℚ) / (windows.length : ℚ) * 100)))
        (i + 1) windows.length ∈ (runWindows call windows).events
    ∧ ∀ j, j < windows.length →
        WorkerEvent.progress
          (normalizeProgress (some (((j + 1 : Nat) : ℚ) / (windows.length : ℚ) * 100)))
          (j + 1) windows.length ∈ (runWindows call windows).events := by
  refine ⟨?_, ?_, fun j hj => ?_⟩
  · unfold runWindows
    exact processWindows_override herr windows.length windows 0 _
  · have h := processWindows_progress_mem call windows.length windows 0
      ⟨[], [], [WorkerEvent.progress 0 0 windows.length]⟩ i hi
    simpa [runWindows] using h
  · have h := processWindows_progress_mem call windows.length windows 0
      ⟨[], [], [WorkerEvent.progress 0 0 windows.length]⟩ j hj
    simpa [runWindows] using h

/-- Witness for `c3_failed_window_skipped`: with two windows whose first
backend call throws, the run equals the run with an empty first result. -/
theorem c3_witness :
    (0 : Nat) < ([⟨[0], 0⟩, ⟨[0], 20⟩] : List AudioWindow).length
    ∧ (fun j => if j = 0 then Except.error (str "boom")
        else Except.ok (⟨str "ok", []⟩ : AsrResult)) 0 = Except.error (str "boom")
    ∧ runWindows (fun j => if j = 0 then Except.error (str "boom")
          else Except.ok (⟨str "ok", []⟩ : AsrResult)) [⟨[0], 0⟩, ⟨[0], 20⟩]
      = runWindows (fun j => if j = 0 then Except.ok ⟨[], []⟩
          else (fun j => if j = 0 then Except.error (str "boom")
            else Except.ok (⟨str "ok", []⟩ : AsrResult)) j) [⟨[0], 0⟩, ⟨[0], 20⟩] :=
  ⟨by decide, rfl,
    (c3_failed_window_skipped _ [⟨[0], 0⟩, ⟨[0], 20⟩] 0 (str "boom") (by decide) rfl).1⟩

/-! ## Helper lemmas: window construction -/

theorem estimateChunkCount_step {m : Nat} (h : WINDOW_SAMPLES < m) :
    estimateChunkCount m = estimateChunkCount (m - CHUNK_JUMP_SAMPLES) + 1 := by
  have hW : WINDOW_SAMPLES = 480000 := rfl
  have hJ : CHUNK_JUMP_SAMPLES = 320000 := rfl
  rw [hW] at h
  rw [estimateChunkCount, estimateChunkCount, hW, hJ]
  rw [if_neg (by omega)]
  by_cases h2 : m - 320000 ≤ 480000
  · rw [if_pos (Or.inl h2)]
    omega
  · rw [if_neg (by omega)]
    omega

set_option maxRecDepth 4000 in
theorem buildWindowsGo_layout (audio : Waveform) :
    ∀ (fuel offset : Nat), offset < audio.length →
      audio.length ≤ offset + fuel →
      buildWindowsGo audio fuel offset
        = (List.range (estimateChunkCount (audio.length - offset))).map
            (fun k => ⟨padToMinLength
                ((audio.drop (offset + k * CHUNK_JUMP_SAMPLES)).take WINDOW_SAMPLES)
                MIN_WINDOW_SAMPLES,
              ((offset + k * CHUNK_JUMP_SAMPLES : Nat) : ℚ) / (SAMPLE_RATE : ℚ)⟩) := by
  have hJpos : 0 < CHUNK_JUMP_SAMPLES := by decide
  have hJW : CHUNK_JUMP_SAMPLES < WINDOW_SAMPLES := by decide
  intro fuel
  induction fuel with
  | zero => intro offset h1 h2; omega
  | succ f ih =>
    intro offset h1 h2
    rw [buildWindowsGo]
    dsimp only
    rw [if_pos h1]
    by_cases hA : audio.length ≤ offset + WINDOW_SAMPLES
    · rw [if_pos (by omega : audio.length ≤ min (offset + WINDOW_SAMPLES) audio.length)]
      have hcount : estimateChunkCount (audio.length - offset) = 1 := by
        rw [estimateChunkCount]
        rw [if_pos (Or.inl (by omega))]
      rw [hcount]
      show _ = [_]
      have htake : (audio.drop offset).take (min (offset + WINDOW_SAMPLES) audio.length - offset)
          = (audio.drop offset).take WINDOW_SAMPLES := by
        rw [List.take_eq_take]
        simp only [List.length_drop]
        omega
      rw [htake]
      simp
    · rw [if_neg (by omega : ¬ audio.length ≤ min (offset + WINDOW_SAMPLES) audio.length)]
      rw [ih (offset + CHUNK_JUMP_SAMPLES) (by omega) (by omega)]
      have hsub : audio.length - (offset + CHUNK_JUMP_SAMPLES)
          = audio.length - offset - CHUNK_JUMP_SAMPLES := by omega
      rw [hsub]
      rw [estimateChunkCount_step (by omega : WINDOW_SAMPLES < audio.length - offset)]
      rw [List.range_succ_eq_map, List.map_cons, List.map_map]
      simp only [List.cons.injEq]
      constructor
      · have hmin : min (offset + WINDOW_SAMPLES) audio.length - offset = WINDOW_SAMPLES := by
          omega
        rw [hmin]
        simp
      · refine List.map_congr_left fun k _ => ?_
        have harith : offset + CHUNK_JUMP_SAMPLES + k * CHUNK_JUMP_SAMPLES
            = offset + (k + 1) * CHUNK_JUMP_SAMPLES := by ring
        dsimp only [Function.comp]
        rw [harith]

theorem estimateChunkCount_pos (m : Nat) : 0 < estimateChunkCount m := by
  have hW : WINDOW_SAMPLES = 480000 := rfl
  have hJ : CHUNK_JUMP_SAMPLES = 320000 := rfl
  rw [estimateChunkCount, hW, hJ]
  split_ifs <;> omega

theorem estimateChunkCount_ceil {m : Nat} (h : WINDOW_SAMPLES < m) :
    (estimateChunkCount m : ℤ)
      = ⌈((m : ℚ) - (WINDOW_SAMPLES : ℚ)) / (CHUNK_JUMP_SAMPLES : ℚ)⌉ + 1 := by
  have hW : WINDOW_SAMPLES = 480000 := rfl
  have hJ : CHUNK_JUMP_SAMPLES = 320000 := rfl
  rw [hW] at h
  rw [estimateChunkCount, hW, hJ]
  rw [if_neg (show ¬ (m ≤ 480000 ∨ 320000 = 0) from by omega)]
  push_cast
  have hcast : (m : ℚ) - 480000 = ((m - 480000 : ℕ) : ℚ) := by
    rw [Nat.cast_sub (by omega : (480000 : ℕ) ≤ m)]
    norm_num
  rw [hcast]
  set a := m - 480000 with ha
  set q := (a + 320000 - 1) / 320000 with hq
  have h1 : a ≤ 320000 * q := by omega
  have h2 : 320000 * q < a + 320000 := by omega
  have h1q : (a : ℚ) ≤ 320000 * (q : ℚ) := by exact_mod_cast h1
  have h2q : (320000 : ℚ) * (q : ℚ) < (a : ℚ) + 320000 := by exact_mod_cast h2
  have hceil : ⌈(a : ℚ) / (320000 : ℚ)⌉ = (q : ℤ) := by
    rw [Int.ceil_eq_iff]
    constructor
    · rw [lt_div_iff₀ (by norm_num : (0:ℚ) < 320000)]
      push_cast
      linarith
    · rw [div_le_iff₀ (by norm_num : (0:ℚ) < 320000)]
      push_cast
      linarith
  rw [hceil]
  omega

/-- **C1** (amended).  For every waveform with at least one sample, the
window-construction loop produces exactly the windows at sample offsets
`0, J·rate, 2·J·rate, …` (each a copy of the next `L·rate` samples,
zero-padded to the 1-second minimum), and their number is
`estimateChunkCount len`: `1` when `len ≤ L·rate` and
`⌈(len − L·rate)/(J·rate)⌉ + 1` otherwise.  The original claim's "for every
waveform" fails only at `len = 0` (see `c1_counterexample` and C8). -/
theorem c1_window_layout (audio : Waveform) (hpos : 0 < audio.length) :
    buildWindows audio
      = (List.range (estimateChunkCount audio.length)).map
          (fun k => ⟨padToMinLength
              ((audio.drop (k * CHUNK_JUMP_SAMPLES)).take WINDOW_SAMPLES)
              MIN_WINDOW_SAMPLES,
            ((k * CHUNK_JUMP_SAMPLES : Nat) : ℚ) / (SAMPLE_RATE : ℚ)⟩)
    ∧ (buildWindows audio).length = estimateChunkCount audio.length
    ∧ (buildWindows audio).map AudioWindow.offsetS
        = (List.range (estimateChunkCount audio.length)).map
            (fun k => ((k * CHUNK_JUMP_SAMPLES : Nat) : ℚ) / (SAMPLE_RATE : ℚ))
    ∧ (audio.length ≤ WINDOW_SAMPLES → estimateChunkCount audio.length = 1)
    ∧ (WINDOW_SAMPLES < audio.length →
        (estimateChunkCount audio.length : ℤ)
          = ⌈((audio.length : ℚ) - (WINDOW_SAMPLES : ℚ)) / (CHUNK_JUMP_SAMPLES : ℚ)⌉ + 1) := by
  have hmain : buildWindows audio
      = (List.range (estimateChunkCount audio.length)).map
          (fun k => ⟨padToMinLength
              ((audio.drop (k * CHUNK_JUMP_SAMPLES)).take WINDOW_SAMPLES)
              MIN_WINDOW_SAMPLES,
            ((k * CHUNK_JUMP_SAMPLES : Nat) : ℚ) / (SAMPLE_RATE : ℚ)⟩) := by
    rw [buildWindows]
    rw [buildWindowsGo_layout audio (audio.length + 1) 0 hpos (by omega)]
    simp only [Nat.sub_zero, Nat.zero_add]
    rw [if_neg]
    intro hcontra
    have := estimateChunkCount_pos audio.length
    simp at hcontra
    omega
  refine ⟨hmain, ?_, ?_, ?_, fun h => estimateChunkCount_ceil h⟩
  · rw [hmain]
    simp
  · rw [hmain, List.map_map]
    rfl
  · intro hle
    rw [estimateChunkCount, if_pos (Or.inl hle)]


/-- Witness for `c1_window_layout`: a 65-second clip yields exactly 3
windows, at offsets 0 s, 20 s and 40 s. -/
theorem c1_witness :
    0 < audio65s.length
    ∧ (buildWindows audio65s).map AudioWindow.offsetS
        = (List.range (estimateChunkCount audio65s.length)).map
            (fun k => ((k * CHUNK_JUMP_SAMPLES : Nat) : ℚ) / (SAMPLE_RATE : ℚ))
    ∧ estimateChunkCount audio65s.length = 3
    ∧ (List.range 3).map (fun k => ((k * CHUNK_JUMP_SAMPLES : Nat) : ℚ) / (SAMPLE_RATE : ℚ))
        = [0, 20, 40] :=
  ⟨by rw [audio65s, List.length_replicate]; decide,
    (c1_window_layout audio65s (by rw [audio65s, List.length_replicate]; decide)).2.2.1,
    by rw [show audio65s.length = 1040000 from by rw [audio65s, List.length_replicate]]; decide,
    by decide⟩

end SonicScript
